import Mathlib

/-
Verification of the syntax-tree construction and error-recovery layer of
jedi's Python parser (src/jedi/parser/python/parser.py), as a shallow
embedding in Lean 4.

Conventions of the embedding:
  * Python token `prefix` (leading trivia) is called `pfx` here.
  * Positions are pairs of integers (line, column).
  * The grammar table is abstracted to `number2symbol : Nat → String` and a
    keyword predicate `String → Bool`; only those parts are read by the code
    under verification.
  * A pgen parse-stack entry `(dfa, state, (type, nodes))` is projected to
    the pair `(type, nodes)`: the recovery code reads and writes only those
    two components.
  * Python negative indexing and slice assignment are modelled by `pyIdx`,
    `pyGetD`, `pySet`.
-/

namespace Jedi

/-- Source position `(line, column)` as carried by tokens and leaves. -/
abbrev Pos := Int × Int

/-- Token type tags relevant to parser.py: NAME, STRING, NUMBER, NEWLINE,
ENDMARKER, INDENT, DEDENT, and a catch-all for operator/other tokens. -/
inductive TokType where
  | name
  | str
  | num
  | newline
  | endmarker
  | indent
  | dedent
  | op
deriving DecidableEq, Repr

/-- Lower-cased token-type name, i.e. `tok_name[typ].lower()` of the code. -/
def tokName : TokType → String
  | .name => "name"
  | .str => "string"
  | .num => "number"
  | .newline => "newline"
  | .endmarker => "endmarker"
  | .indent => "indent"
  | .dedent => "dedent"
  | .op => "op"

/-- A token as produced by the tokenizer: type tag, literal text, start
position, leading trivia (Python attribute `prefix`, here `pfx`). -/
structure Token where
  typ : TokType
  value : String
  startPos : Pos
  pfx : String
deriving DecidableEq, Repr

/-- Leaf classification performed by `Parser.convert_leaf`. -/
inductive LeafKind where
  | name
  | keyword
  | string
  | number
  | newline
  | endmarker
  | operator
deriving DecidableEq, Repr

/-- Tree elements: leaves (with their kind), generic nodes, specialized
nodes (symbols present in `Parser.AST_MAPPING`), error nodes and error
leaves. An error leaf additionally records the token-type tag as a string. -/
inductive TreeElem where
  | leaf (kind : LeafKind) (value : String) (pos : Pos) (pfx : String)
  | node (symbol : String) (children : List TreeElem)
  | typedNode (symbol : String) (children : List TreeElem)
  | errorNode (children : List TreeElem)
  | errorLeaf (tokTag : String) (value : String) (pos : Pos) (pfx : String)

/-- A parse-stack frame, projected to the components the recovery code
uses: the grammar-symbol number and the accumulated children. -/
structure Frame where
  typ : Nat
  nodes : List TreeElem

/-- Default frame used by the total versions of Python indexing. -/
def dfltFrame : Frame := ⟨0, []⟩

/-- Mutable parser state of `ParserWithRecovery`: `_omit_dedent_list`,
`_indent_counter` and `syntax_errors`. -/
@[ext]
structure PState where
  omitList : List Int
  indentCounter : Int
  syntaxErrors : List (Pos × String)

/-- Python list index normalization: negative indices count from the end. -/
def pyIdx (i : Int) (n : Nat) : Int := if i < 0 then i + n else i

/-- Python `l[i]` (total version with a default, for out-of-range). -/
def pyGetD (l : List Frame) (i : Int) (d : Frame) : Frame :=
  l.getD (pyIdx i l.length).toNat d

/-- Python `l[i] = x` (total version: out-of-range is a no-op). -/
def pySet (l : List Frame) (i : Int) (x : Frame) : List Frame :=
  l.set (pyIdx i l.length).toNat x

/-! ## The indent/dedent filter (`ParserWithRecovery._tokenize`) -/

/-- One step of `_tokenize`: given the current state and a token, returns
the new state and the yielded token (`none` when the token is dropped).
Mirrors parser.py lines 274-289. -/
def tokStep (st : PState) (t : Token) : PState × Option Token :=
  match t.typ with
  | .dedent =>
    match st.omitList.getLast? with
    | some v =>
      if v = st.indentCounter then
        ({ st with omitList := st.omitList.dropLast }, none)
      else
        ({ st with indentCounter := st.indentCounter - 1 }, some t)
    | none => ({ st with indentCounter := st.indentCounter - 1 }, some t)
  | .indent => ({ st with indentCounter := st.indentCounter + 1 }, some t)
  | _ => (st, some t)

/-- Run of `_tokenize` over a whole token list (no recovery interleaved):
final state and the yielded tokens in order. -/
def tokRun (st : PState) : List Token → PState × List Token
  | [] => (st, [])
  | t :: ts =>
    let s1 := tokStep st t
    let rest := tokRun s1.1 ts
    (rest.1, match s1.2 with
             | some tok => tok :: rest.2
             | none => rest.2)

/-! ## The leaf factory (`Parser.convert_leaf`) -/

/-- The used-names registry, `self._used_names`: identifier text to the
Name leaves registered under it, in registration order. -/
abbrev UsedNames := String → List TreeElem

/-- `Parser.convert_leaf` (parser.py lines 121-141): classifies a token
into a leaf; a non-keyword NAME is appended to the used-names registry
under its text (the `setdefault`/`append` of the code). -/
def convertLeaf (kw : String → Bool) (used : UsedNames) (typ : TokType)
    (value : String) (pfx : String) (pos : Pos) : UsedNames × TreeElem :=
  match typ with
  | .name =>
    if kw value then
      (used, .leaf .keyword value pos pfx)
    else
      let n := TreeElem.leaf .name value pos pfx
      (fun s => if s = value then used s ++ [n] else used s, n)
  | .str => (used, .leaf .string value pos pfx)
  | .num => (used, .leaf .number value pos pfx)
  | .newline => (used, .leaf .newline value pos pfx)
  | .endmarker => (used, .leaf .endmarker value pos pfx)
  | _ => (used, .leaf .operator value pos pfx)

/-- Folding `convert_leaf` over a token list: final registry and the
produced leaves in order. -/
def convertLeaves (kw : String → Bool) (used : UsedNames) :
    List Token → UsedNames × List TreeElem
  | [] => (used, [])
  | t :: ts =>
    let p := convertLeaf kw used t.typ t.value t.pfx t.startPos
    let rest := convertLeaves kw p.1 ts
    (rest.1, p.2 :: rest.2)

/-! ## The node factory (`Parser.convert_node`) -/

/-- The symbols of `Parser.AST_MAPPING` (the keys of the class attribute). -/
def astMapping : List String :=
  ["expr_stmt", "classdef", "funcdef", "file_input", "import_name",
   "import_from", "break_stmt", "continue_stmt", "return_stmt",
   "raise_stmt", "yield_expr", "del_stmt", "pass_stmt", "global_stmt",
   "nonlocal_stmt", "print_stmt", "assert_stmt", "if_stmt", "with_stmt",
   "for_stmt", "while_stmt", "try_stmt", "comp_for", "decorator",
   "lambdef", "old_lambdef", "lambdef_nocond"]

/-- `Parser.convert_node` (parser.py lines 101-119): a symbol with a
specialized variant constructs it; otherwise a generic Node, where the
`suite` symbol first strips the virtual INDENT (second child) and the
final DEDENT (`children = [children[0]] + children[2:-1]`). -/
def convertNode (g : Nat → String) (typ : Nat) (children : List TreeElem) :
    TreeElem :=
  let symbol := g typ
  if astMapping.contains symbol then
    .typedNode symbol children
  else
    .node symbol
      (if symbol == "suite" then children.take 1 ++ (children.drop 2).dropLast
       else children)

/-! ## The error-recovery engine (`ParserWithRecovery.error_recovery`) -/

/-- The condition on which the anchor scan of `current_suite` stops at a
frame: its symbol is `file_input`, or it is a `suite` frame with more than
one accumulated child, or a `simple_stmt` frame with more than one
accumulated child (parser.py lines 220-231). -/
def suiteCond (g : Nat → String) (f : Frame) : Bool :=
  g f.typ == "file_input"
    || (g f.typ == "suite" && decide (1 < f.nodes.length))
    || (g f.typ == "simple_stmt" && decide (1 < f.nodes.length))

/-- The scan of `current_suite`, iterating the stack index downward from
`i`.  Index 0 is returned unconditionally, matching the Python `for` loop
over `reversed(list(enumerate(stack)))` whose loop variables leak the last
iteration's values when no `break` fires. -/
def currentSuiteAux (g : Nat → String) (stack : List Frame) :
    Nat → Nat × String × List TreeElem
  | 0 =>
    (0, g (stack.getD 0 dfltFrame).typ, (stack.getD 0 dfltFrame).nodes)
  | i + 1 =>
    if suiteCond g (stack.getD (i + 1) dfltFrame) then
      (i + 1, g (stack.getD (i + 1) dfltFrame).typ,
       (stack.getD (i + 1) dfltFrame).nodes)
    else
      currentSuiteAux g stack i

/-- `current_suite` (parser.py lines 217-232): scan the parse stack from
the innermost frame to the outermost, returning the first qualifying
frame's index, symbol and accumulated children. -/
def currentSuite (g : Nat → String) (stack : List Frame) :
    Nat × String × List TreeElem :=
  currentSuiteAux g stack (stack.length - 1)

/-- The loop body of `_stack_removal` (parser.py lines 258-267): scan the
frames above the anchor; from the first frame with accumulated children
onward, collect all children in stack order.  Returns the truthiness of
`failed_stack` and `all_nodes`. -/
def removalScan : List Frame → Bool × List TreeElem
  | [] => (false, [])
  | f :: fs =>
    if f.nodes.isEmpty then
      removalScan fs
    else
      (true, f.nodes ++ (fs.map Frame.nodes).flatten)

/-- `_stack_removal` (parser.py lines 257-272): wrap everything collected
above `start_index` into an ErrorNode appended to the frame at
`start_index - 1`, truncate the stack, and report whether any content was
removed. -/
def stackRemoval (stack : List Frame) (startIndex : Int) :
    List Frame × Bool :=
  let tail := stack.drop (pyIdx startIndex stack.length).toNat
  let scan := removalScan tail
  let stack1 :=
    if scan.1 then
      let anch := pyGetD stack (startIndex - 1) dfltFrame
      pySet stack (startIndex - 1)
        ⟨anch.typ, anch.nodes ++ [TreeElem.errorNode scan.2]⟩
    else stack
  (stack1.take (pyIdx startIndex stack1.length).toNat, scan.1)

/-- The outcome of one `error_recovery` invocation: the rejected token is
re-submitted via `add_token_callback`, or (a rejected INDENT with nothing
removed) recorded on the omit list and dropped, or absorbed as an
ErrorLeaf on the innermost remaining frame. -/
inductive ROutcome where
  | resubmit (typ : TokType) (value : String) (pos : Pos) (pfx : String)
  | omitIndent
  | absorb

/-- The simple_stmt folding step of `error_recovery` (parser.py lines
235-243): wrap the anchor's children into a generic Node tagged with the
grandparent's symbol, append it to the grandparent frame (two levels
down the stack) and clear the anchor frame's children. -/
def foldStack (g : Nat → String) (stack : List Frame) (index : Nat)
    (nodes : List TreeElem) : List Frame :=
  let i2 : Int := (index : Int) - 2
  let gp := pyGetD stack i2 dfltFrame
  let stack1 := pySet stack i2
    ⟨gp.typ, gp.nodes ++ [TreeElem.node (g gp.typ) nodes]⟩
  let af := pyGetD stack1 (index : Int) dfltFrame
  pySet stack1 (index : Int) ⟨af.typ, []⟩

/-- The tail of `error_recovery` after anchor selection (parser.py lines
246-255): run `_stack_removal` above the anchor; if content was removed,
re-submit the rejected token; otherwise record an INDENT on the omit list,
or absorb any other token as an ErrorLeaf on the innermost remaining
frame (`stack[-1][2][1].append(error_leaf)`). -/
def recoveryResume (stack : List Frame) (anchorIdx : Int) (typ : TokType)
    (value : String) (pos : Pos) (pfx : String) (st : PState) :
    List Frame × PState × ROutcome :=
  let rem := stackRemoval stack (anchorIdx + 1)
  if rem.2 then
    (rem.1, st, .resubmit typ value pos pfx)
  else if typ == TokType.indent then
    (rem.1, { st with omitList := st.omitList ++ [st.indentCounter] },
     .omitIndent)
  else
    let lf := pyGetD rem.1 (-1) dfltFrame
    (pySet rem.1 (-1)
       ⟨lf.typ, lf.nodes ++ [TreeElem.errorLeaf (tokName typ) value pos pfx]⟩,
     st, .absorb)

/-- `ParserWithRecovery.error_recovery` (parser.py lines 210-255): locate
the recovery anchor with `current_suite`, fold a `simple_stmt` anchor into
its grandparent, then resume via `recoveryResume`. -/
def errorRecovery (g : Nat → String) (stack : List Frame) (typ : TokType)
    (value : String) (pos : Pos) (pfx : String) (st : PState) :
    List Frame × PState × ROutcome :=
  let cs := currentSuite g stack
  if cs.2.1 == "simple_stmt" then
    recoveryResume (foldStack g stack cs.1 cs.2.2) ((cs.1 : Int) - 2)
      typ value pos pfx st
  else
    recoveryResume stack (cs.1 : Int) typ value pos pfx st

/-! ## Trailing-newline removal (`Parser.remove_last_newline`) -/

/-- The end-marker leaf's data read and written by `remove_last_newline`:
its prefix (trivia) text, and its start position (line, column). -/
structure EndLeaf where
  pfx : List Char
  line : Int
  col : Int

/-- The leaf immediately preceding the end marker in tree order
(`endmarker.get_previous_leaf()`): its value, start position, and the
column of its end position. -/
structure PrevLeaf where
  value : List Char
  startLine : Int
  startCol : Int
  endCol : Int

/-- Suffix of a character list after its first newline; the list itself
if it has none. -/
def afterFirstNL : List Char → List Char
  | [] => []
  | c :: cs => if c = '\n' then cs else afterFirstNL cs

theorem afterFirstNL_length_lt :
    ∀ cs : List Char, cs.contains '\n' = true →
      (afterFirstNL cs).length < cs.length := by
  intro cs h
  induction cs with
  | nil => simp [List.contains] at h
  | cons c cs ih =>
    by_cases hc : c = '\n'
    · subst hc
      simp [afterFirstNL]
    · have hcs : cs.contains '\n' = true := by
        simp [List.contains_cons] at h
        rcases h with h | h
        · exact absurd h.symm hc
        · simpa [List.contains] using h
      have := ih hcs
      simp only [afterFirstNL, if_neg hc, List.length_cons]
      omega

/-- `re.sub('.*\n', '', s)` as the code runs it: `.` does not match a
newline, so each match of the pattern is one full line including its
newline, and substitution removes lines until none is left. -/
def subDotStarNL (cs : List Char) : List Char :=
  if h : cs.contains '\n' then subDotStarNL (afterFirstNL cs) else cs
termination_by cs.length
decreasing_by exact afterFirstNL_length_lt cs h

/-- The last partial line of a text: the segment following its last
newline (the whole text when it has no newline). -/
def lastPartialLine (cs : List Char) : List Char :=
  (cs.reverse.takeWhile (fun c => c != '\n')).reverse

/-- `Parser.remove_last_newline` (parser.py lines 143-167), on the data it
touches.  Returns the updated end marker and previous leaf, or `none` when
the code's `assert newline.value.endswith('\n')` would fail. -/
def removeLastNewline (em : EndLeaf) (prev : Option PrevLeaf) :
    Option (EndLeaf × Option PrevLeaf) :=
  if em.pfx.getLast? = some '\n' then
    let p := em.pfx.dropLast
    let lastEnd : Int :=
      if p.contains '\n' then 0
      else
        match prev with
        | some pl => pl.endCol
        | none => 0
    let lastLine := subDotStarNL p
    some ({ pfx := p, line := em.line - 1, col := lastEnd + lastLine.length },
          prev)
  else
    match prev with
    | none => some (em, none)
    | some pl =>
      if pl.value.getLast? = some '\n' then
        let v := pl.value.dropLast
        some ({ em with line := pl.startLine, col := pl.startCol + v.length },
              some { pl with value := v })
      else
        none

/-! ## Event traces of the filter/recovery interaction (indent balance)

The pgen driver pulls each token from the filter and, when it rejects an
INDENT with nothing to remove, `error_recovery` pushes the current indent
depth onto the omit list before the next token is pulled.  Modelled from
the spec (sections 4.3/4.4 and 6): the driver itself is outside this
repository's sources; the per-token filter transition is `tokStep` above,
and the omit push is the one of `errorRecovery` (parser.py line 252). -/

/-- One event of the interleaved run: an INDENT token (with the flag
telling whether the driver rejected it with nothing to remove, causing the
omit push), a DEDENT token, or any other token. -/
inductive REvent where
  | ind (rejected : Bool)
  | ded
  | other

/-- State transition of one event: the filter step of the token, followed
by the omit push of `error_recovery` for a rejected INDENT. -/
def estep (s : PState) : REvent → PState
  | .ind rejected =>
    let s1 := (tokStep s ⟨.indent, "", (0, 0), ""⟩).1
    if rejected then { s1 with omitList := s1.omitList ++ [s1.indentCounter] }
    else s1
  | .ded => (tokStep s ⟨.dedent, "", (0, 0), ""⟩).1
  | .other => s

/-- Run of a whole event trace. -/
def erun (s : PState) : List REvent → PState
  | [] => s
  | e :: es => erun (estep s e) es

/-- Whether a DEDENT arriving in state `s` is dropped by the filter. -/
def dedDropped (s : PState) : Bool :=
  match s.omitList.getLast? with
  | some v => v == s.indentCounter
  | none => false

/-- Number of DEDENT tokens the filter drops along a run. -/
def eDrops (s : PState) : List REvent → Nat
  | [] => 0
  | e :: es =>
    (match e with
     | .ded => if dedDropped s then 1 else 0
     | _ => 0) + eDrops (estep s e) es

/-- Number of DEDENT tokens the filter yields along a run. -/
def eYieldD (s : PState) : List REvent → Nat
  | [] => 0
  | e :: es =>
    (match e with
     | .ded => if dedDropped s then 0 else 1
     | _ => 0) + eYieldD (estep s e) es

/-- Number of INDENT tokens in a trace (each is yielded by the filter). -/
def eInd : List REvent → Nat
  | [] => 0
  | e :: es =>
    (match e with
     | .ind _ => 1
     | _ => 0) + eInd es

/-- Number of DEDENT tokens in a trace. -/
def eDed : List REvent → Nat
  | [] => 0
  | e :: es =>
    (match e with
     | .ded => 1
     | _ => 0) + eDed es

/-- Number of omit-list pushes in a trace (rejected INDENTs). -/
def ePushes : List REvent → Nat
  | [] => 0
  | e :: es =>
    (match e with
     | .ind true => 1
     | _ => 0) + ePushes es

/-- Well-nested raw INDENT/DEDENT structure of a token stream, as the
tokenizer guarantees it: matched, properly nested markers with arbitrary
other tokens interspersed. -/
inductive Bal : List REvent → Prop
  | nil : Bal []
  | other {es : List REvent} : Bal es → Bal (.other :: es)
  | wrap {e1 e2 : List REvent} (rejected : Bool) :
      Bal e1 → Bal e2 → Bal (.ind rejected :: e1 ++ .ded :: e2)

/-! ## Theorems -/

/-- C5: the indent/dedent filter, for each token of the wrapped token
source in order: a DEDENT whose omit-list top equals the current indent
counter pops that entry and is dropped; any other DEDENT decrements the
counter and is yielded; an INDENT increments the counter and is yielded;
every other token is yielded unchanged; the yielded tokens are a
subsequence of the input, preserving order and all fields. -/
theorem tokenize_filter_spec (st : PState) (t : Token) (ts : List Token) :
    (t.typ = TokType.dedent → st.omitList.getLast? = some st.indentCounter →
      tokStep st t = ({ st with omitList := st.omitList.dropLast }, none)) ∧
    (t.typ = TokType.dedent → st.omitList.getLast? ≠ some st.indentCounter →
      tokStep st t
        = ({ st with indentCounter := st.indentCounter - 1 }, some t)) ∧
    (t.typ = TokType.indent →
      tokStep st t
        = ({ st with indentCounter := st.indentCounter + 1 }, some t)) ∧
    (t.typ ≠ TokType.indent → t.typ ≠ TokType.dedent →
      tokStep st t = (st, some t)) ∧
    (tokRun st ts).2.Sublist ts := by
  refine ⟨?_, ?_, ?_, ?_, ?_⟩
  · intro hd hl
    simp [tokStep, hd, hl]
  · intro hd hl
    cases hv : st.omitList.getLast? with
    | none => simp [tokStep, hd, hv]
    | some v =>
      have : ¬ v = st.indentCounter := by
        intro hEq; exact hl (by rw [hv, hEq])
      simp [tokStep, hd, hv, this]
  · intro hi
    simp [tokStep, hi]
  · intro hni hnd
    cases ht : t.typ <;> simp_all [tokStep]
  · induction ts generalizing st with
    | nil => simp [tokRun]
    | cons t ts ih =>
      simp only [tokRun]
      cases hs : (tokStep st t).2 with
      | none => exact List.Sublist.cons t (ih _)
      | some tok =>
        have htok : tok = t := by
          unfold tokStep at hs
          rcases ht : t.typ <;> simp [ht] at hs <;> try exact hs.symm
          cases hv : st.omitList.getLast? with
          | none => simp [hv] at hs; exact hs.symm
          | some v =>
            by_cases he : v = st.indentCounter
            · simp [hv, he] at hs
            · simp [hv, he] at hs; exact hs.symm
        subst htok
        exact List.Sublist.cons₂ tok (ih _)

/-- C5 witness: with omit list `[2]` and indent counter `2`, a DEDENT is
dropped and the entry popped; an INDENT from counter `0` is yielded with
the counter incremented. -/
theorem tokenize_filter_spec_witness :
    tokStep ⟨[2], 2, []⟩ ⟨.dedent, "", (3, 0), ""⟩ = (⟨[], 2, []⟩, none) ∧
    tokStep ⟨[], 0, []⟩ ⟨.indent, "  ", (2, 0), ""⟩
      = (⟨[], 1, []⟩, some ⟨.indent, "  ", (2, 0), ""⟩) := by
  exact ⟨(tokenize_filter_spec ⟨[2], 2, []⟩ ⟨.dedent, "", (3, 0), ""⟩ []).1
           rfl rfl,
         (tokenize_filter_spec ⟨[], 0, []⟩ ⟨.indent, "  ", (2, 0), ""⟩
            []).2.2.1 rfl⟩

/-- C7: a NAME token whose text is a grammar keyword becomes a Keyword
leaf; every other NAME token becomes a Name leaf appended exactly once to
the used-names registry under its text, so each registry entry lists the
Name leaves of that identifier text in input order and Keyword leaves are
never registered. -/
theorem convert_leaf_used_names (kw : String → Bool) (used : UsedNames)
    (toks : List Token) (t : String) (v pfx : String) (pos : Pos) :
    (convertLeaf kw used .name v pfx pos).2
      = (if kw v then TreeElem.leaf .keyword v pos pfx
         else TreeElem.leaf .name v pos pfx) ∧
    (convertLeaves kw used toks).1 t
      = used t
        ++ (toks.filter
              (fun tok => tok.typ == TokType.name && !kw tok.value
                            && tok.value == t)).map
             (fun tok => TreeElem.leaf .name tok.value tok.startPos tok.pfx) := by
  constructor
  · by_cases hkw : kw v <;> simp [convertLeaf, hkw]
  · induction toks generalizing used with
    | nil => simp [convertLeaves]
    | cons tok toks ih =>
      simp only [convertLeaves]
      cases htyp : tok.typ with
      | name =>
        by_cases hkw : kw tok.value
        · simp [convertLeaf, htyp, hkw, ih]
        · by_cases hvt : tok.value = t
          · subst hvt
            simp [convertLeaf, htyp, hkw, ih, List.append_assoc]
          · have hvt' : ¬ t = tok.value := fun hh => hvt hh.symm
            have : ¬ (tok.value == t) = true := by simp [hvt]
            simp [convertLeaf, htyp, hkw, hvt, hvt', ih, this]
      | str => simp [convertLeaf, htyp, ih]
      | num => simp [convertLeaf, htyp, ih]
      | newline => simp [convertLeaf, htyp, ih]
      | endmarker => simp [convertLeaf, htyp, ih]
      | indent => simp [convertLeaf, htyp, ih]
      | dedent => simp [convertLeaf, htyp, ih]
      | op => simp [convertLeaf, htyp, ih]

/-- C8: for the `suite` symbol (which has no specialized variant), the
node factory keeps the first child followed by the children from index 2
up to but excluding the last child, dropping the virtual INDENT and the
final DEDENT. -/
theorem convert_node_suite (g : Nat → String) (typ : Nat) (c0 : TreeElem)
    (rest : List TreeElem) (hsym : g typ = "suite") :
    astMapping.contains "suite" = false ∧
    convertNode g typ (c0 :: rest)
      = .node "suite" (c0 :: (rest.drop 1).take (rest.length - 2)) := by
  refine ⟨by decide, ?_⟩
  have h1 : astMapping.contains "suite" = false := by decide
  have h2 : ("suite" == "suite") = true := by decide
  simp only [convertNode, hsym, h1, Bool.false_eq_true, if_false, h2, if_true]
  have hslice : ((c0 :: rest).drop 2).dropLast
      = (rest.drop 1).take (rest.length - 2) := by
    rw [List.drop_succ_cons, List.dropLast_eq_take, List.length_drop,
        Nat.sub_sub]
  rw [hslice]
  simp

/-- C8 witness: a four-child suite keeps its first and third children. -/
theorem convert_node_suite_witness :
    convertNode (fun _ => "suite") 5
      [.leaf .newline "\n" (1, 5) "", .leaf .operator "" (1, 6) "",
       .node "stmt" [], .leaf .operator "" (2, 0) ""]
      = .node "suite"
          [.leaf .newline "\n" (1, 5) "", .node "stmt" []] := by
  exact (convert_node_suite (fun _ => "suite") 5
    (.leaf .newline "\n" (1, 5) "")
    [.leaf .operator "" (1, 6) "", .node "stmt" [], .leaf .operator "" (2, 0) ""]
    rfl).2

theorem currentSuiteAux_eq (g : Nat → String) (stack : List Frame) (j : Nat)
    (hcond : suiteCond g (stack.getD j dfltFrame) = true) :
    ∀ i, j ≤ i →
      (∀ k, j < k → k ≤ i → suiteCond g (stack.getD k dfltFrame) = false) →
      currentSuiteAux g stack i
        = (j, g (stack.getD j dfltFrame).typ, (stack.getD j dfltFrame).nodes) := by
  intro i
  induction i with
  | zero =>
    intro hji _
    have : j = 0 := Nat.le_zero.mp hji
    subst this
    rfl
  | succ i ih =>
    intro hji habove
    by_cases hj : j = i + 1
    · subst hj
      unfold currentSuiteAux
      rw [if_pos hcond]
    · have hji' : j ≤ i := by omega
      have hcf : suiteCond g (stack.getD (i + 1) dfltFrame) = false :=
        habove (i + 1) (by omega) (by omega)
      simp only [currentSuiteAux, hcf, Bool.false_eq_true, if_false]
      exact ih hji' (fun k hk1 hk2 => habove k hk1 (by omega))

/-- C2: the recovery anchor is the first frame found scanning the parse
stack from innermost to outermost that satisfies `suiteCond` (symbol
`file_input`, or a `suite`/`simple_stmt` frame with more than one
accumulated child); recovery records that frame's index, symbol and
accumulated children, innermost frames taking precedence. -/
theorem current_suite_anchor (g : Nat → String) (stack : List Frame)
    (j : Nat) (hj : j < stack.length)
    (hcond : suiteCond g (stack.getD j dfltFrame) = true)
    (habove : ∀ k, j < k → k < stack.length →
      suiteCond g (stack.getD k dfltFrame) = false) :
    currentSuite g stack
      = (j, g (stack.getD j dfltFrame).typ, (stack.getD j dfltFrame).nodes) := by
  unfold currentSuite
  exact currentSuiteAux_eq g stack j hcond (stack.length - 1) (by omega)
    (fun k hk1 hk2 => habove k hk1 (by omega))

/-- C2 witness: in a three-frame stack whose outermost frame is
`file_input`, whose middle frame is a `suite` with two accumulated
children and whose innermost frame is a bare `expr`, the scan stops at
the middle frame. -/
theorem current_suite_anchor_witness :
    currentSuite
      (fun n => if n = 0 then "file_input" else
                if n = 1 then "suite" else "expr")
      [⟨0, []⟩,
       ⟨1, [.leaf .newline "\n" (1, 0) "", .leaf .operator "" (1, 1) ""]⟩,
       ⟨7, []⟩]
      = (1, "suite",
         [.leaf .newline "\n" (1, 0) "", .leaf .operator "" (1, 1) ""]) := by
  exact current_suite_anchor
    (fun n => if n = 0 then "file_input" else
              if n = 1 then "suite" else "expr")
    [⟨0, []⟩,
     ⟨1, [.leaf .newline "\n" (1, 0) "", .leaf .operator "" (1, 1) ""]⟩,
     ⟨7, []⟩]
    1 (by decide) (by decide)
    (by
      intro k hk1 hk2
      have : k = 2 := by
        simp only [List.length_cons, List.length_nil] at hk2
        omega
      subst this
      decide)

theorem pyIdx_nonneg {i : Int} (h : 0 ≤ i) (n : Nat) : pyIdx i n = i := by
  unfold pyIdx
  rw [if_neg (by omega)]

theorem pyIdx_neg_one (n : Nat) : pyIdx (-1) n = -1 + n := by
  unfold pyIdx
  rw [if_pos (by omega)]

theorem removalScan_fst (fs : List Frame) :
    (removalScan fs).1 = fs.any (fun f => !f.nodes.isEmpty) := by
  induction fs with
  | nil => rfl
  | cons f fs ih =>
    by_cases he : f.nodes.isEmpty
    · simp [removalScan, he, ih]
    · simp [removalScan, he]

theorem getLast?_take_succ {α : Type} {l : List α} {i : Nat}
    (h : i < l.length) : (l.take (i + 1)).getLast? = l[i]? := by
  rw [List.getLast?_eq_getElem?]
  have hlen : (l.take (i + 1)).length = i + 1 := by simp; omega
  rw [hlen, Nat.add_sub_cancel]
  exact List.getElem?_take_of_lt (by omega)

theorem stackRemoval_not_found (stackA : List Frame) (aIdx : Int)
    (h0 : 0 ≤ aIdx)
    (hrem : (stackA.drop (aIdx.toNat + 1)).any (fun f => !f.nodes.isEmpty)
              = false) :
    stackRemoval stackA (aIdx + 1) = (stackA.take (aIdx.toNat + 1), false) := by
  unfold stackRemoval
  have hpy : pyIdx (aIdx + 1) stackA.length = aIdx + 1 :=
    pyIdx_nonneg (by omega) _
  have htn : (aIdx + 1).toNat = aIdx.toNat + 1 := by omega
  have hfst : (removalScan (stackA.drop (aIdx.toNat + 1))).1 = false := by
    rw [removalScan_fst]; exact hrem
  simp only [hpy, htn, hfst, Bool.false_eq_true, if_false]

theorem stackRemoval_found (stackA : List Frame) (aIdx : Int)
    (h0 : 0 ≤ aIdx)
    (hrem : (stackA.drop (aIdx.toNat + 1)).any (fun f => !f.nodes.isEmpty)
              = true) :
    stackRemoval stackA (aIdx + 1)
      = ((stackA.set aIdx.toNat
            ⟨(stackA.getD aIdx.toNat dfltFrame).typ,
             (stackA.getD aIdx.toNat dfltFrame).nodes
               ++ [TreeElem.errorNode
                     (removalScan (stackA.drop (aIdx.toNat + 1))).2]⟩).take
          (aIdx.toNat + 1),
         true) := by
  unfold stackRemoval
  have hpy : pyIdx (aIdx + 1) stackA.length = aIdx + 1 :=
    pyIdx_nonneg (by omega) _
  have htn : (aIdx + 1).toNat = aIdx.toNat + 1 := by omega
  have hfst : (removalScan (stackA.drop (aIdx.toNat + 1))).1 = true := by
    rw [removalScan_fst]; exact hrem
  have hanch : pyGetD stackA (aIdx + 1 - 1) dfltFrame
      = stackA.getD aIdx.toNat dfltFrame := by
    unfold pyGetD
    rw [show aIdx + 1 - 1 = aIdx by omega, pyIdx_nonneg h0]
  have hset : pySet stackA (aIdx + 1 - 1)
        ⟨(stackA.getD aIdx.toNat dfltFrame).typ,
         (stackA.getD aIdx.toNat dfltFrame).nodes
           ++ [TreeElem.errorNode
                 (removalScan (stackA.drop (aIdx.toNat + 1))).2]⟩
      = stackA.set aIdx.toNat
          ⟨(stackA.getD aIdx.toNat dfltFrame).typ,
           (stackA.getD aIdx.toNat dfltFrame).nodes
             ++ [TreeElem.errorNode
                   (removalScan (stackA.drop (aIdx.toNat + 1))).2]⟩ := by
    unfold pySet
    rw [show aIdx + 1 - 1 = aIdx by omega, pyIdx_nonneg h0]
  simp only [hpy, htn, hfst, if_true, hanch, hset, List.length_set]

/-- Case analysis of `recoveryResume` shared by several theorems below. -/
theorem recoveryResume_cases (stackA : List Frame) (aIdx : Int)
    (typ : TokType) (value : String) (pos : Pos) (pfx : String) (st : PState)
    (h0 : 0 ≤ aIdx) (hlen : aIdx.toNat < stackA.length) :
    ((stackA.drop (aIdx.toNat + 1)).any (fun f => !f.nodes.isEmpty) = true →
      recoveryResume stackA aIdx typ value pos pfx st
        = ((stackRemoval stackA (aIdx + 1)).1, st,
           ROutcome.resubmit typ value pos pfx)) ∧
    ((stackA.drop (aIdx.toNat + 1)).any (fun f => !f.nodes.isEmpty) = false →
      typ = TokType.indent →
      recoveryResume stackA aIdx typ value pos pfx st
        = (stackA.take (aIdx.toNat + 1),
           { st with omitList := st.omitList ++ [st.indentCounter] },
           ROutcome.omitIndent)) ∧
    ((stackA.drop (aIdx.toNat + 1)).any (fun f => !f.nodes.isEmpty) = false →
      ¬ typ = TokType.indent →
      (recoveryResume stackA aIdx typ value pos pfx st).2.1 = st ∧
      (recoveryResume stackA aIdx typ value pos pfx st).2.2
        = ROutcome.absorb ∧
      (recoveryResume stackA aIdx typ value pos pfx st).1.getLast?
        = some ⟨(stackA.getD aIdx.toNat dfltFrame).typ,
                (stackA.getD aIdx.toNat dfltFrame).nodes
                  ++ [TreeElem.errorLeaf (tokName typ) value pos pfx]⟩) := by
  have hk : aIdx.toNat + 1 ≤ stackA.length := by omega
  refine ⟨?_, ?_, ?_⟩
  · intro hrem
    unfold recoveryResume
    rw [stackRemoval_found stackA aIdx h0 hrem]
    rfl
  · intro hrem htyp
    unfold recoveryResume
    rw [stackRemoval_not_found stackA aIdx h0 hrem]
    subst htyp
    rfl
  · intro hrem htyp
    have hbeq : (typ == TokType.indent) = false := by
      cases typ <;> simp_all
    have htklen : (stackA.take (aIdx.toNat + 1)).length = aIdx.toNat + 1 := by
      simp
      omega
    have hgetlast : pyGetD (stackA.take (aIdx.toNat + 1)) (-1) dfltFrame
        = stackA.getD aIdx.toNat dfltFrame := by
      unfold pyGetD
      rw [htklen, pyIdx_neg_one]
      rw [show ((-1 : Int) + (aIdx.toNat + 1 : Nat)).toNat = aIdx.toNat by
            omega]
      simp only [List.getD_eq_getElem?_getD]
      rw [List.getElem?_take_of_lt (by omega)]
    have hres : recoveryResume stackA aIdx typ value pos pfx st
        = (pySet (stackA.take (aIdx.toNat + 1)) (-1)
             ⟨(stackA.getD aIdx.toNat dfltFrame).typ,
              (stackA.getD aIdx.toNat dfltFrame).nodes
                ++ [TreeElem.errorLeaf (tokName typ) value pos pfx]⟩,
           st, ROutcome.absorb) := by
      unfold recoveryResume
      rw [stackRemoval_not_found stackA aIdx h0 hrem]
      simp only [hbeq, Bool.false_eq_true, if_false, hgetlast]
    rw [hres]
    refine ⟨rfl, rfl, ?_⟩
    unfold pySet
    rw [htklen, pyIdx_neg_one]
    rw [show ((-1 : Int) + (aIdx.toNat + 1 : Nat)).toNat = aIdx.toNat by omega]
    rw [List.getLast?_eq_getElem?]
    have hsl : ((stackA.take (aIdx.toNat + 1)).set aIdx.toNat
        ⟨(stackA.getD aIdx.toNat dfltFrame).typ,
         (stackA.getD aIdx.toNat dfltFrame).nodes
           ++ [TreeElem.errorLeaf (tokName typ) value pos pfx]⟩).length
        = aIdx.toNat + 1 := by
      rw [List.length_set, htklen]
    rw [hsl, Nat.add_sub_cancel]
    rw [List.getElem?_set_self (by rw [htklen]; omega)]

/-- C3: after anchor selection and stack removal: if some frame above the
anchor had accumulated children (removal occurred), the rejected token is
re-submitted exactly once via the callback with its original data; with no
removal, a rejected INDENT pushes the current indent depth onto the omit
list and is consumed without resubmission; any other rejected token with
no removal is appended as an ErrorLeaf (token-type tag as a string, value,
start position, prefix) to the children of the innermost remaining frame,
without resubmission. -/
theorem error_recovery_resume_spec (stackA : List Frame) (aIdx : Int)
    (typ : TokType) (value : String) (pos : Pos) (pfx : String) (st : PState)
    (h0 : 0 ≤ aIdx) (hlen : aIdx.toNat < stackA.length) :
    ((stackA.drop (aIdx.toNat + 1)).any (fun f => !f.nodes.isEmpty) = true →
      recoveryResume stackA aIdx typ value pos pfx st
        = ((stackRemoval stackA (aIdx + 1)).1, st,
           ROutcome.resubmit typ value pos pfx)) ∧
    ((stackA.drop (aIdx.toNat + 1)).any (fun f => !f.nodes.isEmpty) = false →
      typ = TokType.indent →
      recoveryResume stackA aIdx typ value pos pfx st
        = (stackA.take (aIdx.toNat + 1),
           { st with omitList := st.omitList ++ [st.indentCounter] },
           ROutcome.omitIndent)) ∧
    ((stackA.drop (aIdx.toNat + 1)).any (fun f => !f.nodes.isEmpty) = false →
      ¬ typ = TokType.indent →
      (recoveryResume stackA aIdx typ value pos pfx st).2.1 = st ∧
      (recoveryResume stackA aIdx typ value pos pfx st).2.2
        = ROutcome.absorb ∧
      (recoveryResume stackA aIdx typ value pos pfx st).1.getLast?
        = some ⟨(stackA.getD aIdx.toNat dfltFrame).typ,
                (stackA.getD aIdx.toNat dfltFrame).nodes
                  ++ [TreeElem.errorLeaf (tokName typ) value pos pfx]⟩) :=
  recoveryResume_cases stackA aIdx typ value pos pfx st h0 hlen

/-- C3 witness: a two-frame stack with content above the anchor triggers
resubmission of the rejected token; on a bare one-frame `file_input`
stack, a rejected operator token is absorbed as an ErrorLeaf on that
frame. -/
theorem error_recovery_resume_spec_witness :
    recoveryResume [⟨0, []⟩, ⟨3, [.leaf .keyword "if" (1, 0) ""]⟩] 0
        .op ":" (1, 5) "" ⟨[], 0, []⟩
      = ((stackRemoval [⟨0, []⟩, ⟨3, [.leaf .keyword "if" (1, 0) ""]⟩] 1).1,
         ⟨[], 0, []⟩, ROutcome.resubmit .op ":" (1, 5) "") ∧
    (recoveryResume [⟨0, []⟩] 0 .op "?" (1, 0) " " ⟨[], 0, []⟩).1.getLast?
      = some ⟨0, [TreeElem.errorLeaf "op" "?" (1, 0) " "]⟩ := by
  constructor
  · exact (error_recovery_resume_spec
      [⟨0, []⟩, ⟨3, [.leaf .keyword "if" (1, 0) ""]⟩] 0 .op ":" (1, 5) ""
      ⟨[], 0, []⟩ (by omega) (by simp)).1 rfl
  · exact ((error_recovery_resume_spec [⟨0, []⟩] 0 .op "?" (1, 0) " "
      ⟨[], 0, []⟩ (by omega) (by simp)).2.2 rfl (by simp)).2.2

theorem pyGetD_nat (l : List Frame) (n : Nat) :
    pyGetD l (n : Int) dfltFrame = l.getD n dfltFrame := by
  unfold pyGetD
  rw [pyIdx_nonneg (by omega)]
  simp

theorem pySet_nat (l : List Frame) (n : Nat) (x : Frame) :
    pySet l (n : Int) x = l.set n x := by
  unfold pySet
  rw [pyIdx_nonneg (by omega)]
  simp

theorem foldStack_eq (g : Nat → String) (stack : List Frame) (i : Nat)
    (nds : List TreeElem) (h2 : 2 ≤ i) :
    foldStack g stack i nds
      = (stack.set (i - 2)
           ⟨(stack.getD (i - 2) dfltFrame).typ,
            (stack.getD (i - 2) dfltFrame).nodes
              ++ [TreeElem.node (g (stack.getD (i - 2) dfltFrame).typ) nds]⟩).set
          i
          ⟨(stack.getD i dfltFrame).typ, []⟩ := by
  unfold foldStack
  have hi2 : (i : Int) - 2 = ((i - 2 : Nat) : Int) := by omega
  simp only [hi2, pyGetD_nat, pySet_nat]
  have hne : ¬ (i - 2) = i := by omega
  have hK : (stack.set (i - 2)
      ⟨(stack.getD (i - 2) dfltFrame).typ,
       (stack.getD (i - 2) dfltFrame).nodes
         ++ [TreeElem.node (g (stack.getD (i - 2) dfltFrame).typ) nds]⟩).getD
        i dfltFrame
      = stack.getD i dfltFrame := by
    simp only [List.getD_eq_getElem?_getD]
    rw [List.getElem?_set_ne hne]
  rw [hK]

theorem foldStack_length (g : Nat → String) (stack : List Frame) (i : Nat)
    (nds : List TreeElem) : (foldStack g stack i nds).length = stack.length := by
  unfold foldStack pySet
  simp

/-- C4: when the anchor found by `current_suite` is a `simple_stmt` frame
(at index `i ≥ 2`), its accumulated children are folded into a generic
Node appended to the children of the frame two levels below it on the
stack, the `simple_stmt` frame's own child list is cleared, and recovery
continues from anchor index `i - 2` (the grandparent). -/
theorem error_recovery_simple_stmt_fold (g : Nat → String)
    (stack : List Frame) (typ : TokType) (value : String) (pos : Pos)
    (pfx : String) (st : PState) (i : Nat) (nds : List TreeElem)
    (hcs : currentSuite g stack = (i, "simple_stmt", nds))
    (h2 : 2 ≤ i) (hlen : i < stack.length) :
    errorRecovery g stack typ value pos pfx st
      = recoveryResume (foldStack g stack i nds) ((i : Int) - 2)
          typ value pos pfx st ∧
    (foldStack g stack i nds).getD (i - 2) dfltFrame
      = ⟨(stack.getD (i - 2) dfltFrame).typ,
         (stack.getD (i - 2) dfltFrame).nodes
           ++ [TreeElem.node (g (stack.getD (i - 2) dfltFrame).typ) nds]⟩ ∧
    ((foldStack g stack i nds).getD i dfltFrame).nodes = [] ∧
    (foldStack g stack i nds).length = stack.length ∧
    (∀ k, k < stack.length → ¬ k = i - 2 → ¬ k = i →
      (foldStack g stack i nds).getD k dfltFrame
        = stack.getD k dfltFrame) := by
  refine ⟨?_, ?_, ?_, foldStack_length g stack i nds, ?_⟩
  · unfold errorRecovery
    rw [hcs]
    simp only [beq_self_eq_true, if_true]
  · rw [foldStack_eq g stack i nds h2]
    simp only [List.getD_eq_getElem?_getD]
    rw [List.getElem?_set_ne (by omega),
        List.getElem?_set_self (by omega)]
    rfl
  · rw [foldStack_eq g stack i nds h2]
    simp only [List.getD_eq_getElem?_getD]
    rw [List.getElem?_set_self (by simp; omega)]
    rfl
  · intro k hk hk2 hki
    rw [foldStack_eq g stack i nds h2]
    simp only [List.getD_eq_getElem?_getD]
    rw [List.getElem?_set_ne (fun hh => hki hh.symm),
        List.getElem?_set_ne (fun hh => hk2 hh.symm)]

/-- C4 witness: a three-frame stack with the `simple_stmt` anchor at
index 2 holding two children folds them into a Node on the `file_input`
frame and clears the anchor frame. -/
theorem error_recovery_simple_stmt_fold_witness :
    errorRecovery
        (fun n => if n = 0 then "file_input" else
                  if n = 1 then "stmt" else "simple_stmt")
        [⟨0, []⟩, ⟨1, []⟩,
         ⟨2, [.leaf .name "x" (1, 0) "", .leaf .operator ";" (1, 1) ""]⟩]
        .newline "\n" (1, 2) "" ⟨[], 0, []⟩
      = recoveryResume
          (foldStack
            (fun n => if n = 0 then "file_input" else
                      if n = 1 then "stmt" else "simple_stmt")
            [⟨0, []⟩, ⟨1, []⟩,
             ⟨2, [.leaf .name "x" (1, 0) "", .leaf .operator ";" (1, 1) ""]⟩]
            2 [.leaf .name "x" (1, 0) "", .leaf .operator ";" (1, 1) ""])
          0 .newline "\n" (1, 2) "" ⟨[], 0, []⟩ ∧
    ((foldStack
        (fun n => if n = 0 then "file_input" else
                  if n = 1 then "stmt" else "simple_stmt")
        [⟨0, []⟩, ⟨1, []⟩,
         ⟨2, [.leaf .name "x" (1, 0) "", .leaf .operator ";" (1, 1) ""]⟩]
        2 [.leaf .name "x" (1, 0) "", .leaf .operator ";" (1, 1) ""]).getD
       2 dfltFrame).nodes = [] := by
  have h := error_recovery_simple_stmt_fold
    (fun n => if n = 0 then "file_input" else
              if n = 1 then "stmt" else "simple_stmt")
    [⟨0, []⟩, ⟨1, []⟩,
     ⟨2, [.leaf .name "x" (1, 0) "", .leaf .operator ";" (1, 1) ""]⟩]
    .newline "\n" (1, 2) "" ⟨[], 0, []⟩ 2
    [.leaf .name "x" (1, 0) "", .leaf .operator ";" (1, 1) ""]
    rfl (by omega) (by simp)
  exact ⟨h.1, h.2.2.1⟩

theorem errorRecovery_dispatch (g : Nat → String) (stack : List Frame)
    (typ : TokType) (value : String) (pos : Pos) (pfx : String) (st : PState)
    (i : Nat) (sym : String) (nds : List TreeElem)
    (hcs : currentSuite g stack = (i, sym, nds)) :
    errorRecovery g stack typ value pos pfx st
      = if sym = "simple_stmt" then
          recoveryResume (foldStack g stack i nds) ((i : Int) - 2)
            typ value pos pfx st
        else
          recoveryResume stack (i : Int) typ value pos pfx st := by
  unfold errorRecovery
  rw [hcs]
  by_cases hsym : sym = "simple_stmt"
  · subst hsym
    simp only [beq_self_eq_true, if_true, if_pos rfl]
  · have hb : (sym == "simple_stmt") = false := by
      simp [hsym]
    simp only [hb, Bool.false_eq_true, if_false, if_neg hsym]

/-- C1 (amended): every invocation of the recovery callback ends in
exactly one of three ways, without raising: the rejected token is
re-submitted to the automaton (previously built content above the anchor
having been wrapped into an ErrorNode on the anchor frame), or a rejected
INDENT with nothing to remove is recorded on the omit list and dropped, or
the rejected token is absorbed as an ErrorLeaf on the innermost remaining
frame. -/
theorem error_recovery_total (g : Nat → String) (stack : List Frame)
    (typ : TokType) (value : String) (pos : Pos) (pfx : String) (st : PState)
    (i : Nat) (sym : String) (nds : List TreeElem) (stackA : List Frame)
    (a : Nat)
    (hcs : currentSuite g stack = (i, sym, nds))
    (hlen : i < stack.length)
    (hss : sym = "simple_stmt" → 2 ≤ i)
    (hA : stackA = if sym = "simple_stmt" then foldStack g stack i nds
                   else stack)
    (ha : a = if sym = "simple_stmt" then i - 2 else i) :
    ((stackA.drop (a + 1)).any (fun f => !f.nodes.isEmpty) = true ∧
       (errorRecovery g stack typ value pos pfx st).2.2
         = ROutcome.resubmit typ value pos pfx ∧
       (errorRecovery g stack typ value pos pfx st).1.getLast?
         = some ⟨(stackA.getD a dfltFrame).typ,
                 (stackA.getD a dfltFrame).nodes
                   ++ [TreeElem.errorNode
                         (removalScan (stackA.drop (a + 1))).2]⟩) ∨
    ((stackA.drop (a + 1)).any (fun f => !f.nodes.isEmpty) = false ∧
       typ = TokType.indent ∧
       (errorRecovery g stack typ value pos pfx st).2.2
         = ROutcome.omitIndent ∧
       (errorRecovery g stack typ value pos pfx st).2.1.omitList
         = st.omitList ++ [st.indentCounter]) ∨
    ((stackA.drop (a + 1)).any (fun f => !f.nodes.isEmpty) = false ∧
       ¬ typ = TokType.indent ∧
       (errorRecovery g stack typ value pos pfx st).2.2
         = ROutcome.absorb ∧
       (errorRecovery g stack typ value pos pfx st).1.getLast?
         = some ⟨(stackA.getD a dfltFrame).typ,
                 (stackA.getD a dfltFrame).nodes
                   ++ [TreeElem.errorLeaf (tokName typ) value pos pfx]⟩) := by
  have hAlen : stackA.length = stack.length := by
    by_cases hsym : sym = "simple_stmt"
    · rw [hA, if_pos hsym]
      exact foldStack_length g stack i nds
    · rw [hA, if_neg hsym]
  have haLen : a < stackA.length := by
    by_cases hsym : sym = "simple_stmt"
    · rw [ha, if_pos hsym, hAlen]
      omega
    · rw [ha, if_neg hsym, hAlen]
      exact hlen
  have her : errorRecovery g stack typ value pos pfx st
      = recoveryResume stackA (a : Int) typ value pos pfx st := by
    rw [errorRecovery_dispatch g stack typ value pos pfx st i sym nds hcs]
    by_cases hsym : sym = "simple_stmt"
    · rw [if_pos hsym, hA, if_pos hsym, ha, if_pos hsym]
      have : (i : Int) - 2 = ((i - 2 : Nat) : Int) := by
        have := hss hsym
        omega
      rw [this]
    · rw [if_neg hsym, hA, if_neg hsym, ha, if_neg hsym]
  have h0 : (0 : Int) ≤ (a : Int) := by omega
  have htn : ((a : Int)).toNat = a := by omega
  have hc := recoveryResume_cases stackA (a : Int) typ value pos pfx st h0
    (by rw [htn]; exact haLen)
  rw [htn] at hc
  cases hrem : (stackA.drop (a + 1)).any (fun f => !f.nodes.isEmpty) with
  | true =>
    left
    refine ⟨rfl, ?_, ?_⟩
    · rw [her, hc.1 hrem]
    · rw [her, hc.1 hrem]
      have hsr := stackRemoval_found stackA (a : Int) h0 (by rw [htn]; exact hrem)
      rw [htn] at hsr
      rw [hsr]
      have hset : a < (stackA.set a
          ⟨(stackA.getD a dfltFrame).typ,
           (stackA.getD a dfltFrame).nodes
             ++ [TreeElem.errorNode
                   (removalScan (stackA.drop (a + 1))).2]⟩).length := by
        simp
        exact haLen
      rw [getLast?_take_succ hset]
      rw [List.getElem?_set_self (by simpa using haLen)]
  | false =>
    by_cases htyp : typ = TokType.indent
    · right; left
      refine ⟨rfl, htyp, ?_, ?_⟩
      · rw [her, hc.2.1 hrem htyp]
      · rw [her, hc.2.1 hrem htyp]
    · right; right
      exact ⟨rfl, htyp, by rw [her]; exact (hc.2.2 hrem htyp).2.1,
             by rw [her]; exact (hc.2.2 hrem htyp).2.2⟩

/-- C1 witness: a rejected INDENT on a bare `file_input` stack with
indent counter 1 ends in the omit-list arm, recording depth 1. -/
theorem error_recovery_total_witness :
    (errorRecovery (fun _ => "file_input") [⟨0, []⟩] .indent "    " (2, 0) ""
       ⟨[], 1, []⟩).2.2 = ROutcome.omitIndent ∧
    (errorRecovery (fun _ => "file_input") [⟨0, []⟩] .indent "    " (2, 0) ""
       ⟨[], 1, []⟩).2.1.omitList = [1] := by
  have h := error_recovery_total (fun _ => "file_input") [⟨0, []⟩] .indent
    "    " (2, 0) "" ⟨[], 1, []⟩ 0 "file_input" [] [⟨0, []⟩] 0 rfl (by simp)
    (by intro hh; exact absurd hh (by decide))
    (by rw [if_neg (by decide)]) (by rw [if_neg (by decide)])
  rcases h with ⟨h1, _⟩ | ⟨_, _, h3, h4⟩ | ⟨_, hne, _⟩
  · exact absurd h1 (by decide)
  · exact ⟨h3, h4⟩
  · exact absurd rfl hne

/-- C1 counterexample: the claim's three-way enumeration (ErrorLeaf
absorption, ErrorNode wrapping, or resubmission) is incomplete: a rejected
INDENT with nothing to remove is recorded on the omit list and dropped,
which is none of the three. -/
theorem error_recovery_total_counterexample :
    ¬ ((errorRecovery (fun _ => "file_input") [⟨0, []⟩] .indent "    "
          (2, 0) "" ⟨[], 1, []⟩).2.2 = ROutcome.absorb ∨
       (∃ t v p s, (errorRecovery (fun _ => "file_input") [⟨0, []⟩] .indent
          "    " (2, 0) "" ⟨[], 1, []⟩).2.2 = ROutcome.resubmit t v p s)) := by
  have hout : (errorRecovery (fun _ => "file_input") [⟨0, []⟩] .indent "    "
      (2, 0) "" ⟨[], 1, []⟩).2.2 = ROutcome.omitIndent := rfl
  rintro (h | ⟨t, v, p, s, h⟩) <;> rw [hout] at h <;> exact
    ROutcome.noConfusion h

/-- C10 (amended): `error_recovery` never appends to the parser's
`syntax_errors` sequence; an invocation leaves it unchanged. -/
theorem error_recovery_syntax_errors_unchanged (g : Nat → String)
    (stack : List Frame) (typ : TokType) (value : String) (pos : Pos)
    (pfx : String) (st : PState) :
    ((errorRecovery g stack typ value pos pfx st).2.1).syntaxErrors
      = st.syntaxErrors := by
  have hres : ∀ (stackA : List Frame) (aIdx : Int),
      ((recoveryResume stackA aIdx typ value pos pfx st).2.1).syntaxErrors
        = st.syntaxErrors := by
    intro stackA aIdx
    unfold recoveryResume
    cases hrem : (stackRemoval stackA (aIdx + 1)).2 with
    | true => simp [hrem]
    | false =>
      by_cases ht : (typ == TokType.indent) = true
      · simp [hrem, ht]
      · simp [hrem, ht]
  unfold errorRecovery
  by_cases hsym : ((currentSuite g stack).2.1 == "simple_stmt") = true
  · simp only [hsym, if_true]
    exact hres _ _
  · simp only [Bool.not_eq_true] at hsym
    simp only [hsym, Bool.false_eq_true, if_false]
    exact hres _ _

/-- C10 counterexample: after a recovery invocation on a parser state
with an empty syntax-errors sequence, the sequence is still empty - no
syntax-error descriptor is appended. -/
theorem error_recovery_syntax_errors_counterexample :
    ((errorRecovery (fun _ => "file_input") [⟨0, []⟩] .op "?" (1, 0) ""
        ⟨[], 0, []⟩).2.1).syntaxErrors = []
    ∧ ¬ (((errorRecovery (fun _ => "file_input") [⟨0, []⟩] .op "?" (1, 0) ""
        ⟨[], 0, []⟩).2.1).syntaxErrors.length
          = ([] : List (Pos × String)).length + 1) := by
  exact ⟨rfl, by decide⟩

theorem contains_nl_iff (cs : List Char) :
    cs.contains '\n' = true ↔ '\n' ∈ cs := by
  simp [List.contains]

theorem takeWhile_append_nl (xs : List Char) :
    ((xs ++ ['\n']).takeWhile (fun c => c != '\n'))
      = xs.takeWhile (fun c => c != '\n') := by
  induction xs with
  | nil => simp [List.takeWhile]
  | cons x xs ih =>
    by_cases hx : x = '\n'
    · subst hx
      simp [List.takeWhile]
    · have hpx : (x != '\n') = true := by simp [hx]
      simp only [List.cons_append, List.takeWhile_cons, hpx, if_true]
      rw [ih]

theorem takeWhile_append_of_mem (xs ys : List Char) (h : '\n' ∈ xs) :
    ((xs ++ ys).takeWhile (fun c => c != '\n'))
      = xs.takeWhile (fun c => c != '\n') := by
  induction xs with
  | nil => cases h
  | cons x xs ih =>
    by_cases hx : x = '\n'
    · subst hx
      simp [List.takeWhile]
    · have hpx : (x != '\n') = true := by simp [hx]
      have hm : '\n' ∈ xs := by
        cases h with
        | head => exact absurd rfl hx
        | tail _ hh => exact hh
      simp only [List.cons_append, List.takeWhile_cons, hpx, if_true]
      rw [ih hm]

theorem takeWhile_eq_self_of_not_mem (xs : List Char) (h : ¬ '\n' ∈ xs) :
    xs.takeWhile (fun c => c != '\n') = xs := by
  induction xs with
  | nil => rfl
  | cons x xs ih =>
    have hx : ¬ x = '\n' := fun hh => h (hh ▸ List.mem_cons_self x xs)
    have hpx : (x != '\n') = true := by simp [hx]
    simp only [List.takeWhile_cons, hpx, if_true]
    rw [ih (fun hh => h (List.mem_cons_of_mem x hh))]

theorem lastPartialLine_cons_nl (cs : List Char) :
    lastPartialLine ('\n' :: cs) = lastPartialLine cs := by
  unfold lastPartialLine
  rw [List.reverse_cons, takeWhile_append_nl]

theorem lastPartialLine_cons_of_mem (c : Char) (cs : List Char)
    (h : '\n' ∈ cs) : lastPartialLine (c :: cs) = lastPartialLine cs := by
  unfold lastPartialLine
  rw [List.reverse_cons,
      takeWhile_append_of_mem cs.reverse [c] (List.mem_reverse.mpr h)]

theorem lastPartialLine_of_not_mem (cs : List Char) (h : ¬ '\n' ∈ cs) :
    lastPartialLine cs = cs := by
  unfold lastPartialLine
  rw [takeWhile_eq_self_of_not_mem cs.reverse
        (fun hh => h (List.mem_reverse.mp hh)),
      List.reverse_reverse]

theorem lastPartialLine_afterFirstNL (cs : List Char) (h : '\n' ∈ cs) :
    lastPartialLine (afterFirstNL cs) = lastPartialLine cs := by
  induction cs with
  | nil => cases h
  | cons c cs ih =>
    by_cases hc : c = '\n'
    · subst hc
      simp only [afterFirstNL, if_pos rfl]
      exact (lastPartialLine_cons_nl cs).symm
    · have hm : '\n' ∈ cs := by
        cases h with
        | head => exact absurd rfl hc
        | tail _ hh => exact hh
      simp only [afterFirstNL, if_neg hc]
      rw [ih hm, lastPartialLine_cons_of_mem c cs hm]

theorem subDotStarNL_eq_lastPartialLine (cs : List Char) :
    subDotStarNL cs = lastPartialLine cs := by
  generalize hn : cs.length = n
  induction n using Nat.strong_induction_on generalizing cs with
  | _ n ih =>
    rw [subDotStarNL]
    by_cases h : cs.contains '\n' = true
    · rw [dif_pos h]
      have hlt := afterFirstNL_length_lt cs h
      rw [ih (afterFirstNL cs).length (by omega) (afterFirstNL cs) rfl]
      exact lastPartialLine_afterFirstNL cs ((contains_nl_iff cs).mp h)
    · rw [dif_neg h]
      exact (lastPartialLine_of_not_mem cs
        (fun hm => h ((contains_nl_iff cs).mpr hm))).symm

/-- C6: with a synthetic trailing newline to remove: when the end-marker's
prefix ends with a newline, that newline is stripped and the new start
position is (old line minus 1, start offset plus the length of the last
partial line of the shortened prefix), the start offset being the previous
leaf's end column when the shortened prefix has no newline and 0
otherwise; when the prefix does not end with a newline, one trailing
newline character is stripped from the preceding leaf's value and the
end marker moves to that leaf's start position plus its shortened length;
with no preceding leaf at all nothing is changed. -/
theorem remove_last_newline_spec (em : EndLeaf) (prev : Option PrevLeaf) :
    (em.pfx.getLast? = some '\n' →
      (em.pfx.dropLast.contains '\n' = true →
        removeLastNewline em prev
          = some ({ pfx := em.pfx.dropLast, line := em.line - 1,
                    col := ((lastPartialLine em.pfx.dropLast).length : Int) },
                  prev)) ∧
      (∀ pl, em.pfx.dropLast.contains '\n' = false → prev = some pl →
        removeLastNewline em prev
          = some ({ pfx := em.pfx.dropLast, line := em.line - 1,
                    col := pl.endCol
                             + ((lastPartialLine em.pfx.dropLast).length : Int) },
                  prev))) ∧
    (¬ em.pfx.getLast? = some '\n' →
      (∀ pl, prev = some pl → pl.value.getLast? = some '\n' →
        removeLastNewline em prev
          = some ({ pfx := em.pfx, line := pl.startLine,
                    col := pl.startCol + (pl.value.dropLast.length : Int) },
                  some { pl with value := pl.value.dropLast })) ∧
      (prev = none → removeLastNewline em prev = some (em, none))) := by
  refine ⟨?_, ?_⟩
  · intro hends
    constructor
    · intro hcont
      simp [removeLastNewline, hends, hcont, subDotStarNL_eq_lastPartialLine]
      intro hmem
      exact absurd ((contains_nl_iff _).mp hcont) hmem
    · intro pl hcont hprev
      subst hprev
      simp [removeLastNewline, hends, hcont, subDotStarNL_eq_lastPartialLine]
      intro hmem
      exact absurd ((contains_nl_iff _).mpr hmem)
        (by rw [hcont]; exact Bool.false_ne_true)
  · intro hends
    constructor
    · intro pl hprev hnl
      subst hprev
      simp [removeLastNewline, hends, hnl]
    · intro hprev
      subst hprev
      simp [removeLastNewline, hends]

/-- C6 witness: a previous-leaf newline value loses its newline and the
end marker moves to its start; a prefix ending in a newline is shortened
with the position recomputed from the previous leaf's end column. -/
theorem remove_last_newline_spec_witness :
    removeLastNewline ⟨[], 2, 0⟩ (some ⟨['\n'], 1, 5, 6⟩)
      = some (⟨[], 1, 5⟩, some ⟨[], 1, 5, 6⟩) ∧
    removeLastNewline ⟨['a', '\n'], 2, 0⟩ (some ⟨['x'], 1, 0, 1⟩)
      = some (⟨['a'], 1, 1 + ((1 : Nat) : Int)⟩, some ⟨['x'], 1, 0, 1⟩) := by
  constructor
  · exact ((remove_last_newline_spec ⟨[], 2, 0⟩
      (some ⟨['\n'], 1, 5, 6⟩)).2 (by simp)).1 ⟨['\n'], 1, 5, 6⟩ rfl rfl
  · exact ((remove_last_newline_spec ⟨['a', '\n'], 2, 0⟩
      (some ⟨['x'], 1, 0, 1⟩)).1 rfl).2 ⟨['x'], 1, 0, 1⟩ (by decide) rfl

theorem estep_other (s : PState) : estep s .other = s := rfl

theorem estep_ind (s : PState) (rejected : Bool) :
    estep s (.ind rejected)
      = { s with indentCounter := s.indentCounter + 1,
                 omitList := if rejected
                             then s.omitList ++ [s.indentCounter + 1]
                             else s.omitList } := by
  cases rejected <;> rfl

theorem estep_ded (s : PState) :
    estep s .ded
      = if dedDropped s then { s with omitList := s.omitList.dropLast }
        else { s with indentCounter := s.indentCounter - 1 } := by
  unfold estep tokStep dedDropped
  cases hv : s.omitList.getLast? with
  | none => simp
  | some v =>
    by_cases he : v = s.indentCounter
    · simp [he]
    · have : (v == s.indentCounter) = false := by simp [he]
      simp [he, this]

theorem erun_append (s : PState) (a b : List REvent) :
    erun s (a ++ b) = erun (erun s a) b := by
  induction a generalizing s with
  | nil => rfl
  | cons e a ih =>
    simp only [List.cons_append, erun, List.append_eq, ih]

theorem eDrops_append (s : PState) (a b : List REvent) :
    eDrops s (a ++ b) = eDrops s a + eDrops (erun s a) b := by
  induction a generalizing s with
  | nil => simp [eDrops, erun]
  | cons e a ih =>
    simp only [List.cons_append, List.append_eq, eDrops, erun, ih]
    omega

theorem ePushes_append (a b : List REvent) :
    ePushes (a ++ b) = ePushes a + ePushes b := by
  induction a with
  | nil => simp [ePushes]
  | cons e a ih =>
    simp only [List.cons_append, List.append_eq, ePushes, ih]
    omega

theorem eInd_append (a b : List REvent) :
    eInd (a ++ b) = eInd a + eInd b := by
  induction a with
  | nil => simp [eInd]
  | cons e a ih =>
    simp only [List.cons_append, List.append_eq, eInd, ih]
    omega

theorem eDed_append (a b : List REvent) :
    eDed (a ++ b) = eDed a + eDed b := by
  induction a with
  | nil => simp [eDed]
  | cons e a ih =>
    simp only [List.cons_append, List.append_eq, eDed, ih]
    omega

theorem eYieldD_add_eDrops (s : PState) (es : List REvent) :
    eYieldD s es + eDrops s es = eDed es := by
  induction es generalizing s with
  | nil => rfl
  | cons e es ih =>
    cases e with
    | ind r => simpa [eYieldD, eDrops, eDed] using ih (estep s (.ind r))
    | other => simpa [eYieldD, eDrops, eDed] using ih (estep s .other)
    | ded =>
      have := ih (estep s .ded)
      by_cases hd : dedDropped s <;>
        simp [eYieldD, eDrops, eDed, hd] <;> omega

theorem bal_eInd_eq_eDed (es : List REvent) (h : Bal es) :
    eInd es = eDed es := by
  induction h with
  | nil => rfl
  | other _ ih => simpa [eInd, eDed] using ih
  | wrap r _ _ ih1 ih2 =>
    simp only [eInd, eDed, List.append_eq, eInd_append, eDed_append, ih1, ih2]
    omega

/-- Key lemma: on a well-nested trace, a run in which the filter never
drops a DEDENT cannot contain an omit push, and returns the state
unchanged - the matching DEDENT of a rejected INDENT would have been
dropped. -/
theorem bal_drop_free (es : List REvent) (hb : Bal es) :
    ∀ s : PState, (∀ v ∈ s.omitList, v ≤ s.indentCounter) →
      eDrops s es = 0 → ePushes es = 0 ∧ erun s es = s := by
  induction hb with
  | nil => exact fun s _ _ => ⟨rfl, rfl⟩
  | @other es hb ih =>
    intro s hmem hdr
    have hdr' : eDrops s es = 0 := by
      simpa [eDrops, estep_other] using hdr
    have := ih s hmem hdr'
    exact ⟨by simpa [ePushes] using this.1, by simpa [erun, estep_other]
             using this.2⟩
  | @wrap e1 e2 r _ _ ih1 ih2 =>
    intro s hmem hdr
    have hs1 : estep s (.ind r)
        = { s with indentCounter := s.indentCounter + 1,
                   omitList := if r then s.omitList ++ [s.indentCounter + 1]
                               else s.omitList } := estep_ind s r
    have hmem1 : ∀ v ∈ (estep s (.ind r)).omitList,
        v ≤ (estep s (.ind r)).indentCounter := by
      rw [hs1]
      intro v hv
      cases r with
      | true =>
        simp only [if_pos rfl] at hv
        rcases List.mem_append.mp hv with hv | hv
        · have := hmem v hv
          show v ≤ s.indentCounter + 1
          omega
        · simp only [List.mem_singleton] at hv
          show v ≤ s.indentCounter + 1
          omega
      | false =>
        simp only [if_neg Bool.false_ne_true] at hv
        have := hmem v hv
        show v ≤ s.indentCounter + 1
        omega
    have hdr0 : eDrops s (.ind r :: e1 ++ .ded :: e2)
        = eDrops (estep s (.ind r)) e1
          + eDrops (erun (estep s (.ind r)) e1) (.ded :: e2) := by
      simp [eDrops, eDrops_append]
    have hdre1 : eDrops (estep s (.ind r)) e1 = 0 := by
      rw [hdr0] at hdr
      omega
    obtain ⟨hp1, hrun1⟩ := ih1 (estep s (.ind r)) hmem1 hdre1
    have hdrded : eDrops (erun (estep s (.ind r)) e1) (.ded :: e2) = 0 := by
      rw [hdr0] at hdr
      omega
    rw [hrun1] at hdrded
    have hnotdropped : dedDropped (estep s (.ind r)) = false := by
      by_contra hdd
      simp only [Bool.not_eq_false] at hdd
      simp [eDrops, hdd] at hdrded
    have hrfalse : r = false := by
      by_contra hr
      simp only [Bool.not_eq_false] at hr
      subst hr
      have : dedDropped (estep s (.ind true)) = true := by
        rw [hs1]
        unfold dedDropped
        simp only [if_pos rfl, List.getLast?_concat]
        simp
      rw [this] at hnotdropped
      cases hnotdropped
    subst hrfalse
    have hback : estep (estep s (.ind false)) .ded = s := by
      rw [estep_ded, if_neg (by rw [hnotdropped]; exact Bool.false_ne_true)]
      rw [hs1]
      simp only [if_neg Bool.false_ne_true]
      ext
      · rfl
      · simp only []
        omega
      · rfl
    have hdre2 : eDrops s e2 = 0 := by
      have : eDrops (estep s (.ind false)) (.ded :: e2)
          = (if dedDropped (estep s (.ind false)) then 1 else 0)
            + eDrops (estep (estep s (.ind false)) .ded) e2 := rfl
      rw [this, hnotdropped, hback] at hdrded
      simpa using hdrded
    obtain ⟨hp2, hrun2⟩ := ih2 s hmem hdre2
    constructor
    · simp [ePushes, ePushes_append, hp1, hp2]
    · calc erun s (.ind false :: e1 ++ .ded :: e2)
          = erun (erun (estep s (.ind false)) e1) (.ded :: e2) := by
            simp [erun, erun_append]
        _ = erun (estep (estep s (.ind false)) .ded) e2 := by rw [hrun1]; rfl
        _ = s := by rw [hback, hrun2]

/-- C9: over a well-nested (tokenizer-produced) raw marker structure, if
the filtered token stream has balanced INDENT/DEDENT markers - the filter
yields as many DEDENTs as INDENTs - then after the full run the indent
counter has returned to 0 and the omit list is empty. -/
theorem indent_balance (es : List REvent) (hb : Bal es)
    (hfb : eYieldD ⟨[], 0, []⟩ es = eInd es) :
    (erun ⟨[], 0, []⟩ es).indentCounter = 0 ∧
    (erun ⟨[], 0, []⟩ es).omitList = [] := by
  have hdr : eDrops ⟨[], 0, []⟩ es = 0 := by
    have h1 := eYieldD_add_eDrops ⟨[], 0, []⟩ es
    have h2 := bal_eInd_eq_eDed es hb
    omega
  have := bal_drop_free es hb ⟨[], 0, []⟩ (by intro v hv; cases hv) hdr
  rw [this.2]
  exact ⟨rfl, rfl⟩

/-- C9 witness: the trace INDENT, other, DEDENT is well nested, its
filtered stream is balanced, and the run returns counter 0 and an empty
omit list. -/
theorem indent_balance_witness :
    (erun ⟨[], 0, []⟩ [.ind false, .other, .ded]).indentCounter = 0 ∧
    (erun ⟨[], 0, []⟩ [.ind false, .other, .ded]).omitList = [] := by
  exact indent_balance [.ind false, .other, .ded]
    (Bal.wrap false (Bal.other Bal.nil) Bal.nil) rfl

end Jedi
